import Mathlib

/-!
Shallow embedding of the `opentrace` pipeline core (`core/pipeline.go`,
`sdk/sdk.go`, and the binary-placement part of `installer/installer.go`).

Modelling conventions:
* Step configurations (`map[string]any` in Go) are opaque to the core, so the
  model takes them as an arbitrary type parameter `Cfg`.
* A module subprocess is modelled by an environment `ExecEnv`: a function from
  the binary path and the serialized `sdk.Input` payload to the observable
  outcome of `cmd.Run()` (whether it returned an error, and the bytes captured
  on the machine-output channel, i.e. stdout).
* `encoding/json` deserialization of `sdk.Output` is an external library call;
  `runModule` is therefore parameterized by an `unmarshal` function, and a
  concrete model `goUnmarshalOutput` of the library's behavior is provided
  separately.
* Errors built with `fmt.Errorf` are modelled structurally, one constructor per
  `fmt.Errorf` site, together with `render` functions reproducing the format
  strings.
-/

namespace OpenTrace

/-- Step of a pipeline, from `core.Step`: a name (also the binary name), a
literal-or-reference input string, and an opaque configuration block. -/
structure Step (Cfg : Type) where
  name : String
  input : String
  config : Cfg
deriving DecidableEq

/-- Pipeline, from `core.Pipeline`: the ordered list parsed from the
`modules:` key of the YAML definition. -/
structure Pipeline (Cfg : Type) where
  modules : List (Step Cfg)
deriving DecidableEq

/-- Payload delivered to a module over stdin, from `sdk.Input`. -/
structure Input (Cfg : Type) where
  input : String
  config : Cfg
deriving DecidableEq

/-- Payload a module returns over stdout, from `sdk.Output`. -/
structure Output where
  result : String
deriving DecidableEq

/-- Output Store: the `outputs` map of `core.Run`, an association list with
Go-map insert-or-replace semantics (`outputs[step.Name] = result`); keys stay
distinct, so `List.length` is the number of entries of the map. -/
def Store := List (String × String)
deriving DecidableEq

/-- Map lookup `outputs[ref]`, with the found/not-found flag (`val, ok :=`). -/
def lookupStore : Store → String → Option String
  | [], _ => none
  | (k, v) :: rest, key => if k = key then some v else lookupStore rest key

/-- Map write `outputs[step.Name] = result`: replace the entry when the key is
present, append it otherwise. -/
def updateStore : Store → String → String → Store
  | [], k, v => [(k, v)]
  | (k', v') :: rest, k, v =>
      if k' = k then (k, v) :: rest else (k', v') :: updateStore rest k v

/-- Test of `strings.HasPrefix(input, "$")`. -/
def hasDollarSigil (s : String) : Bool :=
  match s.data with
  | c :: _ => c = '$'
  | [] => false

/-- Application of `strings.TrimPrefix(input, "$")`: strip the sigil when it
is present, return the string unchanged otherwise. -/
def dropDollarSigil (s : String) : String :=
  match s.data with
  | c :: rest => if c = '$' then ⟨rest⟩ else s
  | [] => s

/-- Errors produced inside `runModule`, one constructor per `fmt.Errorf`
site: process failure (`cmd.Run` returned an error: spawn failure or nonzero
exit), empty machine-output capture, and undecodable machine output (carrying
the library error text and the raw captured bytes). -/
inductive ModError where
  | processError (msg : String)
  | protocolEmpty
  | protocolBadJson (errMsg : String) (raw : String)
deriving DecidableEq

/-- Format strings of the `fmt.Errorf` calls in `runModule`. -/
def ModError.render : ModError → String
  | .processError msg => "exited with error: " ++ msg
  | .protocolEmpty => "module produced no output"
  | .protocolBadJson e raw =>
      "module output is not valid JSON: " ++ e ++ "\nraw output:\n" ++ raw

/-- Errors produced by `core.Run`: a reference to a step with no recorded
output (carrying the referencing step's name and the missing referenced name),
or a `runModule` error wrapped with the step's name (`"[%s] %w"`). -/
inductive RunError where
  | refError (stepName : String) (ref : String)
  | stepError (stepName : String) (e : ModError)
deriving DecidableEq

/-- Step name every `RunError` carries: `refError`'s first `%q` argument,
`stepError`'s `"[%s]"` wrapper. -/
def RunError.wrappedStep : RunError → String
  | .refError n _ => n
  | .stepError n _ => n

/-- Format strings of the error returns in `core.Run` (`%q` rendered as plain
double quotes). -/
def RunError.render : RunError → String
  | .refError n r =>
      "module \"" ++ n ++ "\" references output of \"" ++ r ++
        "\" but it hasn't run yet"
  | .stepError n e => "[" ++ n ++ "] " ++ e.render

/-- Observable outcome of one `cmd.Run()` call: `runErr` is `some msg` when
`cmd.Run` returned an error (spawn failure or nonzero exit code), and `stdout`
is the full capture of the machine-output channel. -/
structure ExecOutcome where
  runErr : Option String
  stdout : String
deriving DecidableEq

/-- Subprocess environment: what the process at a given binary path does when
fed a given `sdk.Input` payload. -/
def ExecEnv (Cfg : Type) := String → Input Cfg → ExecOutcome

/-- Character class of Go's `unicode.IsSpace` on the Latin-1 range (space,
tab, newline, vertical tab, form feed, carriage return, NEL, NBSP); the model
does not cover the exotic Unicode space classes, which the pipeline protocol
never produces. -/
def isSpaceChar (c : Char) : Bool :=
  c = ' ' || c = '\t' || c = '\n' || c = '\r' ||
    c.val = 0x0B || c.val = 0x0C || c.val = 0x85 || c.val = 0xA0

/-- Model of `bytes.TrimSpace`: drop whitespace from both ends. -/
def trimSpace (s : String) : String :=
  ⟨((s.data.dropWhile isSpaceChar).reverse.dropWhile isSpaceChar).reverse⟩

/-- Decoder signature standing for `json.Unmarshal(raw, &out)` with
`out : sdk.Output`: either the decode error or the decoded value. -/
def OutputDecoder := String → Except String Output

/-- Embedding of `core.runModule` (minus the live stderr forwarding, which
never affects the result): run the subprocess, classify `cmd.Run` failure,
trim the stdout capture, reject an empty capture, decode, and project the
`result` field. -/
def runModule (unmarshal : OutputDecoder) (env : ExecEnv Cfg)
    (binPath : String) (inp : Input Cfg) : Except ModError String :=
  let oc := env binPath inp
  match oc.runErr with
  | some msg => .error (.processError msg)
  | none =>
      let raw := trimSpace oc.stdout
      if raw = "" then .error .protocolEmpty
      else
        match unmarshal raw with
        | .error e => .error (.protocolBadJson e raw)
        | .ok out => .ok out.result

/-- Model of `filepath.Join(dir, name)` for the two-component calls the code
makes, without the final `Clean` normalization (the identity on the
already-clean paths the code composes). -/
def joinPath (dir name : String) : String :=
  if dir = "" then name else if name = "" then dir else dir ++ "/" ++ name

/-- Reference resolution of `core.Run` (lines 50-61): a `$`-prefixed input is
replaced by the Output Store entry of the name after the sigil, failing when
that entry is absent; any other input passes through literally. -/
def resolveInput (outputs : Store) (stepName : String) (input : String) :
    Except RunError String :=
  if hasDollarSigil input then
    let ref := dropDollarSigil input
    match lookupStore outputs ref with
    | some val => .ok val
    | none => .error (.refError stepName ref)
  else .ok input

/-- Spawn event: one call of `runModule`, i.e. one subprocess spawn attempt,
recording the binary path and the exact `sdk.Input` payload delivered. -/
structure SpawnEvent (Cfg : Type) where
  binPath : String
  payload : Input Cfg
deriving DecidableEq

/-- State returned by the instrumented run loop: the Output Store as left by
the loop, the ordered list of subprocess spawn attempts, and the error the
loop returned, if any. -/
structure RunState (Cfg : Type) where
  outputs : Store
  spawns : List (SpawnEvent Cfg)
  error : Option RunError
deriving DecidableEq

/-- Embedding of the loop body of `core.Run`, instrumented with the spawn
trace: resolve the input (failing with no spawn on a dangling reference), run
the module at `filepath.Join(binDir, step.Name)`, on failure wrap the error
with the step name and stop, on success record the result and continue. -/
def runSteps (unmarshal : OutputDecoder) (env : ExecEnv Cfg) (binDir : String) :
    Store → List (Step Cfg) → RunState Cfg
  | outputs, [] => ⟨outputs, [], none⟩
  | outputs, step :: rest =>
      match resolveInput outputs step.name step.input with
      | .error e => ⟨outputs, [], some e⟩
      | .ok inp =>
          let binPath := joinPath binDir step.name
          let payload : Input Cfg := ⟨inp, step.config⟩
          match runModule unmarshal env binPath payload with
          | .error e => ⟨outputs, [⟨binPath, payload⟩], some (.stepError step.name e)⟩
          | .ok result =>
              let s := runSteps unmarshal env binDir
                (updateStore outputs step.name result) rest
              ⟨s.outputs, ⟨binPath, payload⟩ :: s.spawns, s.error⟩

/-- Embedding of `core.Run`: start from the empty Output Store, run every step
in declared order, and report only the error (the store is run-scoped and
dropped, as in the Go function). -/
def Run (unmarshal : OutputDecoder) (env : ExecEnv Cfg) (p : Pipeline Cfg)
    (binDir : String) : Option RunError :=
  (runSteps unmarshal env binDir [] p.modules).error

/-! ### Model of `encoding/json` deserialization into `sdk.Output`

`json.Unmarshal(raw, &out)` is a Go standard-library call, external to the
repository. The model below reproduces its behavior on the `sdk.Output`
struct: the input must be exactly one JSON document (numeric literals are
kept as text and their syntax is accepted loosely — the core never interprets
numbers); a top-level object assigns its keys to the `result` field by
case-insensitive name match with later duplicates winning and `null`
assignments skipped, unknown keys are ignored; top-level `null` leaves the
zero value; any other top-level value is a type error. -/

/-- JSON documents. -/
inductive Json where
  | null
  | bool (b : Bool)
  | num (lit : String)
  | str (s : String)
  | arr (elems : List Json)
  | obj (fields : List (String × Json))

/-- JSON insignificant whitespace (space, tab, newline, carriage return). -/
def skipWs (cs : List Char) : List Char :=
  cs.dropWhile (fun c => c = ' ' || c = '\t' || c = '\n' || c = '\r')

/-- Value of one hexadecimal digit (digits, then the two letter ranges by
code point). -/
def hexDigitVal (c : Char) : Option Nat :=
  let n := c.toNat
  if c.isDigit then some (n - 48)
  else if 97 ≤ n && n ≤ 102 then some (n - 87)
  else if 65 ≤ n && n ≤ 70 then some (n - 55)
  else none

/-- Translation table of the single-character JSON escapes. -/
def escTranslate (c : Char) : Option Char :=
  if c = '"' then some '"'
  else if c = '\\' then some '\\'
  else if c = '/' then some '/'
  else if c = 'b' then some '\x08'
  else if c = 'f' then some '\x0c'
  else if c = 'n' then some '\n'
  else if c = 'r' then some '\r'
  else if c = 't' then some '\t'
  else none

/-- Combined value of four hexadecimal digits, when all four are digits. -/
def hexQuad (h1 h2 h3 h4 : Char) : Option Nat :=
  match hexDigitVal h1, hexDigitVal h2, hexDigitVal h3, hexDigitVal h4 with
  | some a, some b, some c, some d => some ((((a * 16) + b) * 16 + c) * 16 + d)
  | _, _, _, _ => none

/-- Body of a JSON string after the opening quote: the decoded characters and
the rest of the input after the closing quote (basic-multilingual-plane
`\u` escapes only; surrogate pairs are out of the model). -/
def parseStrBody : List Char → Option (List Char × List Char)
  | [] => none
  | c :: rest =>
      if c = '"' then some ([], rest)
      else if c = '\\' then
        match rest with
        | [] => none
        | e :: rest2 =>
            if e = 'u' then
              match rest2 with
              | h1 :: h2 :: h3 :: h4 :: rest3 =>
                  match hexQuad h1 h2 h3 h4 with
                  | some v =>
                      (parseStrBody rest3).map
                        (fun p => (Char.ofNat v :: p.1, p.2))
                  | none => none
              | _ => none
            else
              match escTranslate e with
              | some d => (parseStrBody rest2).map (fun p => (d :: p.1, p.2))
              | none => none
      else (parseStrBody rest).map (fun p => (c :: p.1, p.2))

/-- Characters a JSON numeric literal may contain. -/
def isNumLitChar (c : Char) : Bool :=
  c.isDigit || c = '-' || c = '+' || c = '.' || c = 'e' || c = 'E'

/-- Parser mode: a single value, the items of an array, or the members of an
object. -/
inductive PMode where
  | one
  | elems
  | fields
deriving DecidableEq

/-- Parser result, matching the mode. -/
inductive PVal where
  | one (j : Json)
  | elems (js : List Json)
  | fields (fs : List (String × Json))

/-- Keyword literals of the JSON grammar and their values. -/
def matchLiteral (cs : List Char) : Option (Json × List Char) :=
  if ("null".data).isPrefixOf cs then some (.null, cs.drop 4)
  else if ("true".data).isPrefixOf cs then some (.bool true, cs.drop 4)
  else if ("false".data).isPrefixOf cs then some (.bool false, cs.drop 5)
  else none

/-- Fuel-indexed recursive-descent JSON parser; the fuel only bounds nesting
of the grammar and `2 * length + 2` always suffices. -/
def parseCore : Nat → PMode → List Char → Option (PVal × List Char)
  | 0, _, _ => none
  | fuel + 1, .one, cs =>
      match matchLiteral (skipWs cs) with
      | some (j, rest) => some (.one j, rest)
      | none =>
      match skipWs cs with
      | '"' :: rest =>
          match parseStrBody rest with
          | some (body, rest') => some (.one (.str ⟨body⟩), rest')
          | none => none
      | '[' :: rest =>
          match skipWs rest with
          | ']' :: r => some (.one (.arr []), r)
          | _ =>
              match parseCore fuel .elems rest with
              | some (.elems js, r) => some (.one (.arr js), r)
              | _ => none
      | '\x7b' :: rest =>
          match skipWs rest with
          | '\x7d' :: r => some (.one (.obj []), r)
          | _ =>
              match parseCore fuel .fields rest with
              | some (.fields fs, r) => some (.one (.obj fs), r)
              | _ => none
      | c :: rest =>
          if c.isDigit || c = '-' then
            let lit := (c :: rest).takeWhile isNumLitChar
            some (.one (.num ⟨lit⟩), (c :: rest).drop lit.length)
          else none
      | [] => none
  | fuel + 1, .elems, cs =>
      match parseCore fuel .one cs with
      | some (.one v, r) =>
          match skipWs r with
          | ',' :: r2 =>
              match parseCore fuel .elems r2 with
              | some (.elems vs, r3) => some (.elems (v :: vs), r3)
              | _ => none
          | ']' :: r2 => some (.elems [v], r2)
          | _ => none
      | _ => none
  | fuel + 1, .fields, cs =>
      match skipWs cs with
      | '"' :: rest =>
          match parseStrBody rest with
          | some (key, r) =>
              match skipWs r with
              | ':' :: r2 =>
                  match parseCore fuel .one r2 with
                  | some (.one v, r3) =>
                      match skipWs r3 with
                      | ',' :: r4 =>
                          match parseCore fuel .fields r4 with
                          | some (.fields fs, r5) =>
                              some (.fields ((⟨key⟩, v) :: fs), r5)
                          | _ => none
                      | '\x7d' :: r4 => some (.fields [(⟨key⟩, v)], r4)
                      | _ => none
                  | _ => none
              | _ => none
          | none => none
      | _ => none

/-- Whole-input JSON parse: exactly one document, with only whitespace after
it (as `json.Unmarshal` requires). -/
def parseJson (s : String) : Option Json :=
  match parseCore (2 * s.data.length + 2) .one s.data with
  | some (.one j, rest) => if skipWs rest = [] then some j else none
  | _ => none

/-- ASCII model of the case-insensitive field-name match `encoding/json`
falls back to. -/
def eqFold (a b : String) : Bool :=
  a.data.map Char.toLower = b.data.map Char.toLower

/-- Values an object assigns to the `result` struct field, in key order. -/
def resultAssigns (fs : List (String × Json)) : List Json :=
  fs.filterMap (fun kv => if eqFold kv.1 "result" then some kv.2 else none)

/-- One assignment to the `result` field: a string stores, `null` is a no-op,
anything else is a type error (the first error is kept). -/
def assignResult (acc : Except String String) (v : Json) : Except String String :=
  match acc with
  | .error e => .error e
  | .ok cur =>
      match v with
      | .str s => .ok s
      | .null => .ok cur
      | _ => .error "cannot unmarshal value into Go struct field Output.result of type string"

/-- Deserialization of a parsed document into `sdk.Output`. -/
def decodeOutput : Json → Except String Output
  | .null => .ok ⟨""⟩
  | .obj fs => ((resultAssigns fs).foldl assignResult (.ok "")).map Output.mk
  | _ => .error "cannot unmarshal value into Go value of type sdk.Output"

/-- Model of `json.Unmarshal(raw, &out)` with `out : sdk.Output`: parse the
whole input as one JSON document, then decode it. -/
def goUnmarshalOutput : OutputDecoder := fun s =>
  match parseJson s with
  | none => .error "invalid character in JSON input"
  | some j => decodeOutput j

/-! ### Model of `os.ExpandEnv` and `core.Load`

`Load` reads the pipeline file, applies `os.ExpandEnv` to the raw text,
parses the result as YAML, and rejects an empty module list. File reading and
YAML decoding are external calls, so `Load` is parameterized by the read
result and the structural parse; `os.ExpandEnv` (Go standard library) is
modelled concretely below, following `os.Expand` with the `os.Getenv`
mapping (an unset variable expands to the empty string, so the mapping is a
total `String → String`). -/

/-- Shell special-variable characters of `os.Expand` (single-character
names). -/
def isShellSpecialVar (c : Char) : Bool :=
  c = '*' || c = '#' || c = '$' || c = '@' || c = '!' || c = '?' || c = '-' ||
    c.isDigit

/-- Characters allowed in a multi-character shell variable name (letters,
digits, underscore). -/
def isAlphaNumChar (c : Char) : Bool :=
  c = '_' || c.isAlpha || c.isDigit

/-- Test for a character other than the closing brace of a `$\x7b...\x7d`
form. -/
def notCloseBrace (ch : Char) : Bool := ch ≠ '\x7d'

/-- Model of Go's `getShellName`, applied to the text after a `$`: the
variable name and the number of characters consumed. A `$\x7b...\x7d` form
takes everything up to the closing brace as the name (`$\x7b\x7d` and an
unterminated `$\x7b` are bad syntax: empty name with positive width);
otherwise a special single-character name or a maximal alphanumeric run
(an empty run with width 0 means the `$` stands for itself). -/
def getShellName (s : List Char) : List Char × Nat :=
  match s with
  | [] => ([], 0)
  | c :: rest =>
      if c = '\x7b' then
        match rest.drop (rest.takeWhile notCloseBrace).length with
        | ch :: _ =>
            if ch = '\x7d' then
              if rest.takeWhile notCloseBrace = [] then ([], 2)
              else (rest.takeWhile notCloseBrace,
                (rest.takeWhile notCloseBrace).length + 2)
            else ([], 1)
        | [] => ([], 1)
      else if isShellSpecialVar c then ([c], 1)
      else (s.takeWhile isAlphaNumChar, (s.takeWhile isAlphaNumChar).length)

/-- Model of the scanning loop of `os.Expand`: copy plain characters, and at
each `$` (not at the very end) consult `getShellName`: substitute a found
name, keep a lone `$` that is followed by no name, and silently eat bad
`$\x7b` syntax. The fuel only bounds the recursion; the input's length always
suffices since every call consumes at least one character. -/
def expandChars (env : String → String) : Nat → List Char → List Char
  | 0, cs => cs
  | _ + 1, [] => []
  | fuel + 1, c :: rest =>
      if c = '$' then
        if rest = [] then ['$']
        else
          let nw := getShellName rest
          if nw.1 = [] then
            if nw.2 = 0 then '$' :: expandChars env fuel rest
            else expandChars env fuel (rest.drop nw.2)
          else (env ⟨nw.1⟩).data ++ expandChars env fuel (rest.drop nw.2)
      else c :: expandChars env fuel rest

/-- Model of `os.ExpandEnv(s)` with environment mapping `env`. -/
def expandEnv (env : String → String) (s : String) : String :=
  ⟨expandChars env s.data.length s.data⟩

/-- Errors of `core.Load`, one constructor per `fmt.Errorf` site: unreadable
file, YAML decode failure, empty module list. -/
inductive LoadError where
  | readError (msg : String)
  | yamlError (msg : String)
  | emptyPipeline
deriving DecidableEq

/-- Format strings of the `fmt.Errorf` calls in `Load` (`%q` rendered as
plain double quotes). -/
def LoadError.render (path : String) : LoadError → String
  | .readError msg => "cannot read pipeline \"" ++ path ++ "\": " ++ msg
  | .yamlError msg => "invalid pipeline YAML: " ++ msg
  | .emptyPipeline => "pipeline has no modules"

/-- Embedding of `core.Load`, parameterized by the outcome of
`os.ReadFile` and by the YAML structural parse (`yaml.Unmarshal`): propagate
a read error, expand environment variables over the whole raw text, parse the
expanded text, propagate a parse error, and reject an empty module list. No
other validation is performed. -/
def Load (readResult : Except String String)
    (parse : String → Except String (Pipeline Cfg)) (env : String → String) :
    Except LoadError (Pipeline Cfg) :=
  match readResult with
  | .error e => .error (.readError e)
  | .ok data =>
      match parse (expandEnv env data) with
      | .error e => .error (.yamlError e)
      | .ok p => if p.modules.length = 0 then .error .emptyPipeline else .ok p

/-! ### Model of the installer's binary placement (`installer.build`) -/

/-- Target operating system (`runtime.GOOS`), as far as the installer
distinguishes it. -/
inductive GoOS where
  | windows
  | linux
  | darwin
deriving DecidableEq

/-- Executable suffix the installer appends: `.exe` on Windows, nothing
elsewhere (`binName := name; if runtime.GOOS == "windows" \x7b binName +=
".exe" \x7d`). -/
def exeSuffix : GoOS → String
  | .windows => ".exe"
  | _ => ""

/-- Path at which `installer.build` places the compiled module binary:
`filepath.Join(BinDir(), binName)` with the platform suffix applied to the
step name. -/
def builtBinPath (goos : GoOS) (binDir name : String) : String :=
  joinPath binDir (name ++ exeSuffix goos)

/-! ## Basic lemmas about the sigil, the store, and resolution -/

lemma data_dollar_append (s : String) : ("$" ++ s).data = '$' :: s.data := by
  simp [String.data_append]

lemma hasDollarSigil_dollar_append (s : String) :
    hasDollarSigil ("$" ++ s) = true := by
  rw [hasDollarSigil, data_dollar_append]
  simp

lemma dropDollarSigil_dollar_append (s : String) :
    dropDollarSigil ("$" ++ s) = s := by
  rw [dropDollarSigil, data_dollar_append]
  simp

lemma resolveInput_ref_found (outputs : Store) (n s v : String)
    (h : lookupStore outputs s = some v) :
    resolveInput outputs n ("$" ++ s) = .ok v := by
  simp [resolveInput, hasDollarSigil_dollar_append, dropDollarSigil_dollar_append, h]

lemma resolveInput_ref_missing (outputs : Store) (n s : String)
    (h : lookupStore outputs s = none) :
    resolveInput outputs n ("$" ++ s) = .error (.refError n s) := by
  simp [resolveInput, hasDollarSigil_dollar_append, dropDollarSigil_dollar_append, h]

/-! ## Claims about reference resolution (C1, C2, C9) -/

/-- C1: when step A has already executed with recorded result `R` (an entry of
the Output Store at the moment a later step B is reached) and B's declared
input is `"$" ++ A`, the subprocess spawned for B receives exactly the payload
`⟨R, B.config⟩`: the `ModuleInput.input` is byte-for-byte `R` and B's config
is passed through unchanged. -/
theorem C1_exact_reference_delivery {Cfg : Type} (unmarshal : OutputDecoder)
    (env : ExecEnv Cfg) (binDir : String) (st : Store) (b : Step Cfg)
    (rest : List (Step Cfg)) (aName R : String)
    (hA : lookupStore st aName = some R) (hB : b.input = "$" ++ aName) :
    (runSteps unmarshal env binDir st (b :: rest)).spawns.head? =
      some ⟨joinPath binDir b.name, ⟨R, b.config⟩⟩ := by
  have hres : resolveInput st b.name b.input = .ok R := by
    rw [hB]; exact resolveInput_ref_found st b.name aName R hA
  cases hmod : runModule unmarshal env (joinPath binDir b.name) ⟨R, b.config⟩ with
  | error e => simp [runSteps, hres, hmod]
  | ok r => simp [runSteps, hres, hmod]

/-- C1 witness at a concrete pipeline state. -/
def wEnvOk : ExecEnv Unit := fun _ _ => ⟨none, "\x7b\"result\":\"out\"\x7d"⟩

/-- C1 witness: step `B` with input `$A` after `A` recorded `"R"` receives
exactly `⟨"R", ()⟩`. -/
theorem C1_witness :
    (runSteps goUnmarshalOutput wEnvOk "bin" [("A", "R")]
        [({ name := "B", input := "$A", config := () } : Step Unit)]).spawns.head? =
      some ⟨joinPath "bin" "B", ⟨"R", ()⟩⟩ :=
  C1_exact_reference_delivery goUnmarshalOutput wEnvOk "bin" [("A", "R")]
    { name := "B", input := "$A", config := () } [] "A" "R" rfl rfl

/-- C2: a step whose input carries the reference sigil but whose referenced
name has no Output Store entry at that point (typo, self-reference or forward
reference alike) makes the run fail at once with a `ReferenceError` carrying
both the referencing step's name and the missing referenced name; the spawn
trace is empty, so no subprocess is spawned for that step (or any later one),
and the store is left untouched. -/
theorem C2_dangling_reference_fails {Cfg : Type} (unmarshal : OutputDecoder)
    (env : ExecEnv Cfg) (binDir : String) (st : Store) (s : Step Cfg)
    (rest : List (Step Cfg)) (h1 : hasDollarSigil s.input = true)
    (h2 : lookupStore st (dropDollarSigil s.input) = none) :
    runSteps unmarshal env binDir st (s :: rest) =
      ⟨st, [], some (.refError s.name (dropDollarSigil s.input))⟩ := by
  have hres : resolveInput st s.name s.input =
      .error (.refError s.name (dropDollarSigil s.input)) := by
    simp [resolveInput, h1, h2]
  simp [runSteps, hres]

/-- C2 witness: a self/forward reference `$A` with an empty store fails with
the `ReferenceError` naming `B` and `A`, spawning nothing. -/
theorem C2_witness :
    runSteps goUnmarshalOutput wEnvOk "bin" []
        [({ name := "B", input := "$A", config := () } : Step Unit)] =
      ⟨[], [], some (.refError "B" "A")⟩ :=
  C2_dangling_reference_fails goUnmarshalOutput wEnvOk "bin" []
    { name := "B", input := "$A", config := () } [] rfl rfl

/-- C9: a `$`-prefixed input is unconditionally a reference: resolution either
fails with a `ReferenceError` on the name after the sigil or delivers the
stored value of that name (never the literal text the author wrote); in
particular the input `"$"` alone is a reference to the empty step name, which
fails unless the store has an entry for `""`. -/
theorem C9_no_escape_for_sigil (st : Store) (n input : String) :
    (hasDollarSigil input = true →
      (lookupStore st (dropDollarSigil input) = none ∧
        resolveInput st n input =
          .error (.refError n (dropDollarSigil input))) ∨
      (∃ v, lookupStore st (dropDollarSigil input) = some v ∧
        resolveInput st n input = .ok v)) ∧
    dropDollarSigil "$" = "" ∧
    (lookupStore st "" = none →
      resolveInput st n "$" = .error (.refError n "")) ∧
    (∀ v, lookupStore st "" = some v → resolveInput st n "$" = .ok v) := by
  have hs : hasDollarSigil "$" = true := rfl
  have hd : dropDollarSigil "$" = "" := rfl
  refine ⟨?_, hd, ?_, ?_⟩
  · intro h
    cases hl : lookupStore st (dropDollarSigil input) with
    | none => exact Or.inl ⟨rfl, by simp [resolveInput, h, hl]⟩
    | some v => exact Or.inr ⟨v, rfl, by simp [resolveInput, h, hl]⟩
  · intro h
    simp [resolveInput, hs, hd, h]
  · intro v h
    simp [resolveInput, hs, hd, h]

/-- C9 witness: with a store holding only `A`, the input `"$"` fails as a
reference to the empty step name; with a store holding an entry for `""`, the
same input `"$"` resolves to that entry's value. -/
theorem C9_witness :
    resolveInput [("A", "R")] "B" "$" = .error (.refError "B" "") ∧
    resolveInput [("", "E")] "B" "$" = .ok "E" :=
  ⟨(C9_no_escape_for_sigil [("A", "R")] "B" "$").2.2.1 rfl,
   (C9_no_escape_for_sigil [("", "E")] "B" "$").2.2.2 "E" rfl⟩

/-! ## Claim about the module invocation protocol (C3) -/

/-- C3: `runModule` classifies every outcome of a spawned module: a `cmd.Run`
failure (nonzero exit) is a `ProcessError` whatever was captured on stdout, a
zero exit with an empty (after whitespace trimming) machine-data capture is
the `ProtocolError` rendered "module produced no output", and a zero exit
with a non-empty capture the decoder rejects is a `ProtocolError` carrying
the captured bytes, whose rendering ends with exactly those bytes. -/
theorem C3_invoke_classification {Cfg : Type} (unmarshal : OutputDecoder)
    (env : ExecEnv Cfg) (binPath : String) (inp : Input Cfg) :
    (∀ msg, (env binPath inp).runErr = some msg →
        runModule unmarshal env binPath inp = .error (.processError msg)) ∧
    ((env binPath inp).runErr = none →
      trimSpace (env binPath inp).stdout = "" →
        runModule unmarshal env binPath inp = .error .protocolEmpty ∧
        ModError.protocolEmpty.render = "module produced no output") ∧
    (∀ e, (env binPath inp).runErr = none →
      trimSpace (env binPath inp).stdout ≠ "" →
      unmarshal (trimSpace (env binPath inp).stdout) = .error e →
        runModule unmarshal env binPath inp =
          .error (.protocolBadJson e (trimSpace (env binPath inp).stdout)) ∧
        ∃ pre, (ModError.protocolBadJson e (trimSpace (env binPath inp).stdout)).render =
          pre ++ trimSpace (env binPath inp).stdout) := by
  refine ⟨?_, ?_, ?_⟩
  · intro msg h
    simp [runModule, h]
  · intro h1 h2
    exact ⟨by simp [runModule, h1, h2], rfl⟩
  · intro e h1 h2 h3
    refine ⟨by simp [runModule, h1, h2, h3],
      "module output is not valid JSON: " ++ e ++ "\nraw output:\n", ?_⟩
    simp [ModError.render, String.append_assoc]

/-- C3 witness environments: nonzero exit with junk captured, zero exit with
a blank capture, zero exit with a non-JSON capture. -/
def wEnvExit : ExecEnv Unit := fun _ _ => ⟨some "exit status 1", "junk"⟩

/-- C3 witness environment with a whitespace-only capture. -/
def wEnvBlank : ExecEnv Unit := fun _ _ => ⟨none, " \n\t "⟩

/-- C3 witness environment with a capture that is not valid JSON. -/
def wEnvBad : ExecEnv Unit := fun _ _ => ⟨none, "oops"⟩

/-- C3 witness: the three classifications at concrete environments. -/
theorem C3_witness :
    runModule goUnmarshalOutput wEnvExit "bin/m" (⟨"i", ()⟩ : Input Unit) =
      .error (.processError "exit status 1") ∧
    runModule goUnmarshalOutput wEnvBlank "bin/m" (⟨"i", ()⟩ : Input Unit) =
      .error .protocolEmpty ∧
    runModule goUnmarshalOutput wEnvBad "bin/m" (⟨"i", ()⟩ : Input Unit) =
      .error (.protocolBadJson "invalid character in JSON input" "oops") :=
  ⟨(C3_invoke_classification goUnmarshalOutput wEnvExit "bin/m" ⟨"i", ()⟩).1
      "exit status 1" rfl,
   ((C3_invoke_classification goUnmarshalOutput wEnvBlank "bin/m" ⟨"i", ()⟩).2.1
      rfl rfl).1,
   ((C3_invoke_classification goUnmarshalOutput wEnvBad "bin/m" ⟨"i", ()⟩).2.2
      "invalid character in JSON input" rfl (by decide) rfl).1⟩

/-! ## Store lemmas and the fail-fast claim (C4) -/

lemma lookupStore_updateStore (st : Store) (k v k' : String) :
    lookupStore (updateStore st k v) k' =
      if k = k' then some v else lookupStore st k' := by
  induction st with
  | nil => simp [updateStore, lookupStore]
  | cons hd tl ih =>
      obtain ⟨a, b⟩ := hd
      by_cases hak : a = k
      · subst hak
        simp only [updateStore, if_pos rfl, lookupStore]
        by_cases hk : a = k'
        · simp [hk]
        · simp [hk]
      · simp only [updateStore, if_neg hak, lookupStore]
        by_cases hk : a = k'
        · subst hk
          have : ¬ (k = a) := fun h => hak h.symm
          simp [this]
        · simp [hk, ih]

lemma runSteps_lookup_isSome {Cfg : Type} (unmarshal : OutputDecoder)
    (env : ExecEnv Cfg) (binDir : String) :
    ∀ (steps : List (Step Cfg)) (st : Store) (k : String),
      (lookupStore st k).isSome →
      (lookupStore (runSteps unmarshal env binDir st steps).outputs k).isSome := by
  intro steps
  induction steps with
  | nil => intro st k h; simpa [runSteps] using h
  | cons s rest ih =>
      intro st k h
      cases hres : resolveInput st s.name s.input with
      | error er => simpa [runSteps, hres] using h
      | ok inp =>
          cases hmod : runModule unmarshal env (joinPath binDir s.name)
              ⟨inp, s.config⟩ with
          | error me => simpa [runSteps, hres, hmod] using h
          | ok r =>
              simp only [runSteps, hres, hmod]
              apply ih
              rw [lookupStore_updateStore]
              by_cases hk : s.name = k
              · simp [hk]
              · simpa [hk] using h

/-- C4: failure semantics of the run loop. A step failing at resolution makes
the loop return that error with the store untouched and zero spawns; a step
whose module invocation fails makes the loop return the error wrapped with
the step's name, with the store untouched (no entry for the failing step,
earlier entries unchanged) and the failing spawn as the only one — no later
step executes. Conversely, a run that returns no error has executed every
step (one spawn per step) and recorded a result for every step's name. -/
theorem C4_fail_fast_abort {Cfg : Type} (unmarshal : OutputDecoder)
    (env : ExecEnv Cfg) (binDir : String) :
    (∀ (st : Store) (s : Step Cfg) rest e,
        resolveInput st s.name s.input = .error e →
        runSteps unmarshal env binDir st (s :: rest) = ⟨st, [], some e⟩ ∧
        e.wrappedStep = s.name) ∧
    (∀ (st : Store) (s : Step Cfg) rest inp me,
        resolveInput st s.name s.input = .ok inp →
        runModule unmarshal env (joinPath binDir s.name) ⟨inp, s.config⟩ =
          .error me →
        runSteps unmarshal env binDir st (s :: rest) =
          ⟨st, [⟨joinPath binDir s.name, ⟨inp, s.config⟩⟩],
            some (.stepError s.name me)⟩ ∧
        (RunError.stepError s.name me).wrappedStep = s.name) ∧
    (∀ (st : Store) (steps : List (Step Cfg)),
        (runSteps unmarshal env binDir st steps).error = none →
        (∀ s ∈ steps, ∃ v,
            lookupStore (runSteps unmarshal env binDir st steps).outputs s.name =
              some v) ∧
        (runSteps unmarshal env binDir st steps).spawns.length = steps.length) := by
  refine ⟨?_, ?_, ?_⟩
  · intro st s rest e hres
    refine ⟨by simp [runSteps, hres], ?_⟩
    unfold resolveInput at hres
    by_cases hs : hasDollarSigil s.input
    · rw [if_pos hs] at hres
      cases hl : lookupStore st (dropDollarSigil s.input) with
      | some v => simp [hl] at hres
      | none =>
          simp [hl] at hres
          rw [← hres]
          rfl
    · rw [if_neg hs] at hres; cases hres
  · intro st s rest inp me hres hmod
    exact ⟨by simp [runSteps, hres, hmod], rfl⟩
  · intro st steps
    induction steps generalizing st with
    | nil => intro _; exact ⟨by simp, by simp [runSteps]⟩
    | cons s rest ih =>
        intro h
        cases hres : resolveInput st s.name s.input with
        | error er => rw [runSteps, hres] at h; cases h
        | ok inp =>
            cases hmod : runModule unmarshal env (joinPath binDir s.name)
                ⟨inp, s.config⟩ with
            | error me => simp [runSteps, hres, hmod] at h
            | ok r =>
                have h' : (runSteps unmarshal env binDir
                    (updateStore st s.name r) rest).error = none := by
                  simpa [runSteps, hres, hmod] using h
                obtain ⟨ih1, ih2⟩ := ih (updateStore st s.name r) h'
                constructor
                · intro s' hs'
                  have houts : (runSteps unmarshal env binDir st (s :: rest)).outputs =
                      (runSteps unmarshal env binDir (updateStore st s.name r) rest).outputs := by
                    simp [runSteps, hres, hmod]
                  rcases List.mem_cons.mp hs' with rfl | hmem
                  · have hbase : (lookupStore (updateStore st s'.name r) s'.name).isSome := by
                      rw [lookupStore_updateStore]; simp
                    have := runSteps_lookup_isSome unmarshal env binDir rest
                      (updateStore st s'.name r) s'.name hbase
                    rw [houts]
                    exact Option.isSome_iff_exists.mp this
                  · rw [houts]
                    exact ih1 s' hmem
                · simp [runSteps, hres, hmod, ih2]

/-- C4 witness: a dangling reference aborts with the store untouched; a
process failure at the second step leaves only the first step's entry and
spawns nothing further; a fully successful run records every step. -/
theorem C4_witness :
    (runSteps goUnmarshalOutput wEnvOk "bin" [("A", "R")]
        [({ name := "B", input := "$missing", config := () } : Step Unit)] =
      ⟨[("A", "R")], [], some (.refError "B" "missing")⟩ ∧
      (RunError.refError "B" "missing").wrappedStep = "B") ∧
    runSteps goUnmarshalOutput wEnvExit "bin" [("A", "R")]
        [({ name := "B", input := "x", config := () } : Step Unit)] =
      ⟨[("A", "R")], [⟨joinPath "bin" "B", ⟨"x", ()⟩⟩],
        some (.stepError "B" (.processError "exit status 1"))⟩ ∧
    (∀ s ∈ [({ name := "B", input := "x", config := () } : Step Unit)], ∃ v,
        lookupStore (runSteps goUnmarshalOutput wEnvOk "bin" []
          [({ name := "B", input := "x", config := () } : Step Unit)]).outputs s.name =
          some v) :=
  ⟨(C4_fail_fast_abort goUnmarshalOutput wEnvOk "bin").1 [("A", "R")]
      { name := "B", input := "$missing", config := () } [] (.refError "B" "missing")
      rfl,
   ((C4_fail_fast_abort goUnmarshalOutput wEnvExit "bin").2.1 [("A", "R")]
      { name := "B", input := "x", config := () } [] "x"
      (.processError "exit status 1") rfl rfl).1,
   ((C4_fail_fast_abort goUnmarshalOutput wEnvOk "bin").2.2 []
      [{ name := "B", input := "x", config := () }] rfl).1⟩

/-! ## Store-size lemmas and the entry-count claim (C5) -/

/-- Keys of the Output Store, in insertion order. -/
def storeKeys (st : Store) : List String := st.map Prod.fst

lemma length_updateStore_of_not_mem (st : Store) (k v : String)
    (h : k ∉ storeKeys st) : (updateStore st k v).length = st.length + 1 := by
  induction st with
  | nil => rfl
  | cons hd tl ih =>
      obtain ⟨a, b⟩ := hd
      have hak : ¬ (a = k) := by
        intro hc; exact h (by simp [storeKeys, hc])
      have htl : k ∉ storeKeys tl := by
        intro hc; exact h (by simp [storeKeys] at hc ⊢; exact Or.inr hc)
      simp [updateStore, hak, ih htl]

lemma storeKeys_updateStore_of_not_mem (st : Store) (k v : String)
    (h : k ∉ storeKeys st) :
    storeKeys (updateStore st k v) = storeKeys st ++ [k] := by
  induction st with
  | nil => rfl
  | cons hd tl ih =>
      obtain ⟨a, b⟩ := hd
      have hak : ¬ (a = k) := by
        intro hc; exact h (by simp [storeKeys, hc])
      have htl : k ∉ storeKeys tl := by
        intro hc; exact h (by simp [storeKeys] at hc ⊢; exact Or.inr hc)
      have := ih htl
      simp [storeKeys] at this
      simp [updateStore, hak, storeKeys, this]

lemma runSteps_success_length {Cfg : Type} (unmarshal : OutputDecoder)
    (env : ExecEnv Cfg) (binDir : String) :
    ∀ (steps : List (Step Cfg)) (st : Store),
      (steps.map Step.name).Nodup →
      (∀ s ∈ steps, s.name ∉ storeKeys st) →
      (runSteps unmarshal env binDir st steps).error = none →
      (runSteps unmarshal env binDir st steps).outputs.length =
        st.length + steps.length := by
  intro steps
  induction steps with
  | nil => intro st _ _ _; simp [runSteps]
  | cons s rest ih =>
      intro st hnd hdisj herr
      obtain ⟨hhead, htail⟩ := List.nodup_cons.mp hnd
      cases hres : resolveInput st s.name s.input with
      | error er => rw [runSteps, hres] at herr; cases herr
      | ok inp =>
          cases hmod : runModule unmarshal env (joinPath binDir s.name)
              ⟨inp, s.config⟩ with
          | error me => simp [runSteps, hres, hmod] at herr
          | ok r =>
              have herr' : (runSteps unmarshal env binDir
                  (updateStore st s.name r) rest).error = none := by
                simpa [runSteps, hres, hmod] using herr
              have hsn : s.name ∉ storeKeys st := hdisj s (List.mem_cons_self s rest)
              have hdisj' : ∀ s' ∈ rest, s'.name ∉
                  storeKeys (updateStore st s.name r) := by
                intro s' hs'
                rw [storeKeys_updateStore_of_not_mem st s.name r hsn]
                intro hc
                rcases List.mem_append.mp hc with hin | hone
                · exact hdisj s' (List.mem_cons_of_mem s hs') hin
                · have : s'.name = s.name := by simpa using hone
                  exact hhead (this ▸ List.mem_map_of_mem Step.name hs')
              have := ih (updateStore st s.name r) htail hdisj' herr'
              have houts : (runSteps unmarshal env binDir st (s :: rest)).outputs =
                  (runSteps unmarshal env binDir (updateStore st s.name r) rest).outputs := by
                simp [runSteps, hres, hmod]
              rw [houts, this, length_updateStore_of_not_mem st s.name r hsn]
              simp only [List.length_cons]
              omega

/-- C5 (amended): provided the pipeline's step names are distinct, after the
`i`-th step completes successfully the Output Store holds exactly `i`
entries; recording is exact: completing a step with result `r` writes the
entry `(step.name, r)` into the store the rest of the run continues from. -/
theorem C5_amended_store_growth {Cfg : Type} (unmarshal : OutputDecoder)
    (env : ExecEnv Cfg) (binDir : String) :
    (∀ (steps : List (Step Cfg)) (i : Nat), (steps.map Step.name).Nodup →
        i ≤ steps.length →
        (runSteps unmarshal env binDir [] (steps.take i)).error = none →
        (runSteps unmarshal env binDir [] (steps.take i)).outputs.length = i) ∧
    (∀ (st : Store) (s : Step Cfg) (r : String),
        lookupStore (updateStore st s.name r) s.name = some r) ∧
    (∀ (st : Store) (s : Step Cfg) rest inp r,
        resolveInput st s.name s.input = .ok inp →
        runModule unmarshal env (joinPath binDir s.name) ⟨inp, s.config⟩ = .ok r →
        runSteps unmarshal env binDir st (s :: rest) =
          ⟨(runSteps unmarshal env binDir (updateStore st s.name r) rest).outputs,
            ⟨joinPath binDir s.name, ⟨inp, s.config⟩⟩ ::
              (runSteps unmarshal env binDir (updateStore st s.name r) rest).spawns,
            (runSteps unmarshal env binDir (updateStore st s.name r) rest).error⟩) := by
  refine ⟨?_, ?_, ?_⟩
  · intro steps i hnd hi herr
    have hsub : List.Sublist ((steps.take i).map Step.name) (steps.map Step.name) :=
      (List.take_sublist i steps).map Step.name
    have hnd' : ((steps.take i).map Step.name).Nodup := List.Nodup.sublist hsub hnd
    have := runSteps_success_length unmarshal env binDir (steps.take i) []
      hnd' (by intro s _ hc; simp [storeKeys] at hc) herr
    rw [this]
    simp [List.length_take, Nat.min_eq_left hi]
  · intro st s r
    rw [lookupStore_updateStore]
    simp
  · intro st s rest inp r hres hmod
    simp [runSteps, hres, hmod]

/-- C5 counterexample data: two steps sharing the name `a`, both succeeding. -/
def dupSteps : List (Step Unit) := [⟨"a", "x", ()⟩, ⟨"a", "y", ()⟩]

/-- C5 counterexample: with two successfully completed steps that share a
name, the second `Put` overwrites the first entry, so after the 2nd step the
Output Store holds 1 entry, not 2 — the claim fails for pipelines with
duplicate step names (which the core does not reject). -/
theorem C5_counterexample :
    (runSteps goUnmarshalOutput wEnvOk "bin" [] dupSteps).error = none ∧
    (runSteps goUnmarshalOutput wEnvOk "bin" [] dupSteps).outputs.length = 1 ∧
    ¬ ((runSteps goUnmarshalOutput wEnvOk "bin" [] dupSteps).outputs.length = 2) := by
  have hlen : (runSteps goUnmarshalOutput wEnvOk "bin" [] dupSteps).outputs.length = 1 := rfl
  exact ⟨rfl, hlen, by rw [hlen]; decide⟩

/-- C5 witness data: two steps with distinct names, the second referencing
the first. -/
def distinctSteps : List (Step Unit) := [⟨"a", "x", ()⟩, ⟨"b", "$a", ()⟩]

/-- C5 witness: with distinct names the store holds exactly 2 entries after
the 2nd step, and a completed step's entry is its exact result. -/
theorem C5_amended_witness :
    (runSteps goUnmarshalOutput wEnvOk "bin" [] (distinctSteps.take 2)).outputs.length = 2 ∧
    lookupStore (updateStore [("a", "out")] "b" "out") "b" = some "out" :=
  ⟨(C5_amended_store_growth goUnmarshalOutput wEnvOk "bin").1 distinctSteps 2
      (by decide) (by decide) rfl,
   (C5_amended_store_growth goUnmarshalOutput wEnvOk "bin").2.1 [("a", "out")]
      ({ name := "b", input := "$a", config := () } : Step Unit) "out"⟩

/-! ## Claims about Load (C6) -/

/-- C6 counterexample parse: the structural parse result a modules list with
an empty `name:` produces (the string zero value, which `yaml.Unmarshal`
happily yields for a missing or empty name). -/
def parseEmptyName : String → Except String (Pipeline Unit) :=
  fun _ => .ok ⟨[⟨"", "x", ()⟩]⟩

/-- C6 counterexample: `Load` performs no step-name validation — a parsed
step carrying an empty name is returned as a successfully loaded pipeline,
not rejected with a `LoadError` as the claim requires. -/
theorem C6_counterexample :
    Load (.ok "modules:\n  - name: \"\"\n    input: x") parseEmptyName
        (fun _ => "") =
      .ok ⟨[⟨"", "x", ()⟩]⟩ := rfl

/-- C6 (amended): `Load` fails with a `LoadError` exactly on an unreadable
source, a structurally malformed source, or an empty parsed step list — and
in each failure case no pipeline is returned; step names are not validated,
so any parse with a non-empty step list (empty names included) loads
successfully. -/
theorem C6_amended_load_failures {Cfg : Type}
    (parse : String → Except String (Pipeline Cfg)) (env : String → String) :
    (∀ m, Load (.error m) parse env = .error (.readError m)) ∧
    (∀ data m, parse (expandEnv env data) = .error m →
        Load (.ok data) parse env = .error (.yamlError m)) ∧
    (∀ data p, parse (expandEnv env data) = .ok p → p.modules = [] →
        Load (.ok data) parse env = .error .emptyPipeline) ∧
    (∀ data p, parse (expandEnv env data) = .ok p → p.modules ≠ [] →
        Load (.ok data) parse env = .ok p) := by
  refine ⟨fun m => rfl, ?_, ?_, ?_⟩
  · intro data m h
    simp [Load, h]
  · intro data p h hmods
    simp [Load, h, hmods]
  · intro data p h hmods
    simp [Load, h, hmods]

/-- C6 witness: the three failure shapes and the no-name-validation success
at concrete inputs. -/
theorem C6_witness :
    Load (Except.error "open pipeline.yml: no such file or directory")
        parseEmptyName (fun _ => "") =
      .error (.readError "open pipeline.yml: no such file or directory") ∧
    Load (.ok "x") (fun _ => (.error "yaml: unmarshal errors" :
        Except String (Pipeline Unit))) (fun _ => "") =
      .error (.yamlError "yaml: unmarshal errors") ∧
    Load (.ok "x") (fun _ => (.ok ⟨[]⟩ : Except String (Pipeline Unit)))
        (fun _ => "") = .error .emptyPipeline ∧
    Load (.ok "x") parseEmptyName (fun _ => "") = .ok ⟨[⟨"", "x", ()⟩]⟩ :=
  ⟨(C6_amended_load_failures parseEmptyName (fun _ => "")).1
      "open pipeline.yml: no such file or directory",
   (C6_amended_load_failures (fun _ => (.error "yaml: unmarshal errors" :
      Except String (Pipeline Unit))) (fun _ => "")).2.1 "x"
      "yaml: unmarshal errors" rfl,
   (C6_amended_load_failures (fun _ => (.ok ⟨[]⟩ : Except String (Pipeline Unit)))
      (fun _ => "")).2.2.1 "x" ⟨[]⟩ rfl rfl,
   (C6_amended_load_failures parseEmptyName (fun _ => "")).2.2.2 "x"
      ⟨[⟨"", "x", ()⟩]⟩ rfl (by simp)⟩

/-! ## Claim about module path resolution (C7) -/

lemma append_ne_empty_left (a b : String) (h : a ≠ "") : a ++ b ≠ "" := by
  intro hc
  apply h
  have hd : (a ++ b).data = [] := by rw [hc]
  rw [String.data_append] at hd
  have : a.data = [] := (List.append_eq_nil.mp hd).1
  exact String.ext this

lemma joinPath_append_suffix (d n x : String) (hn : n ≠ "") :
    joinPath d (n ++ x) = joinPath d n ++ x := by
  unfold joinPath
  by_cases hd : d = ""
  · simp [hd]
  · rw [if_neg hd, if_neg hd, if_neg (append_ne_empty_left n x hn), if_neg hn]
    simp [String.append_assoc]

/-- C7: every subprocess the Orchestrator spawns runs the binary at
`filepath.Join(binDir, step.name)` for some step of the pipeline, and the
installer places the compiled binary for `name` at exactly that path extended
with the platform executable suffix — `".exe"` on Windows and nothing on the
other platforms (where the two paths coincide); the Windows lookup of the
suffixed file from the suffix-free spawn path is Go's `exec` resolution,
outside the repository. -/
theorem C7_module_path_resolution {Cfg : Type} (unmarshal : OutputDecoder)
    (env : ExecEnv Cfg) (binDir : String) :
    (∀ (st : Store) (steps : List (Step Cfg)) ev,
        ev ∈ (runSteps unmarshal env binDir st steps).spawns →
        ∃ s, s ∈ steps ∧ ev.binPath = joinPath binDir s.name) ∧
    (∀ (goos : GoOS) (d n : String), n ≠ "" →
        builtBinPath goos d n = joinPath d n ++ exeSuffix goos) ∧
    exeSuffix .windows = ".exe" ∧ exeSuffix .linux = "" ∧
    exeSuffix .darwin = "" := by
  refine ⟨?_, ?_, rfl, rfl, rfl⟩
  · intro st steps
    induction steps generalizing st with
    | nil => intro ev hev; simp [runSteps] at hev
    | cons s rest ih =>
        intro ev hev
        cases hres : resolveInput st s.name s.input with
        | error er => simp [runSteps, hres] at hev
        | ok inp =>
            cases hmod : runModule unmarshal env (joinPath binDir s.name)
                ⟨inp, s.config⟩ with
            | error me =>
                simp [runSteps, hres, hmod] at hev
                exact ⟨s, List.mem_cons_self s rest, by rw [hev]⟩
            | ok r =>
                simp only [runSteps, hres, hmod] at hev
                rcases List.mem_cons.mp hev with hhead | htail
                · exact ⟨s, List.mem_cons_self s rest, by rw [hhead]⟩
                · obtain ⟨s', hs', hpath⟩ := ih (updateStore st s.name r) ev htail
                  exact ⟨s', List.mem_cons_of_mem s hs', hpath⟩
  · intro goos d n hn
    cases goos with
    | windows => exact joinPath_append_suffix d n ".exe" hn
    | linux => simp [builtBinPath, exeSuffix]
    | darwin => simp [builtBinPath, exeSuffix]

/-- C7 witness: a concrete run spawns `bin/B`, and the installer's placement
matches it with suffix `".exe"` on Windows and verbatim on Linux. -/
theorem C7_witness :
    (∃ s, s ∈ [({ name := "B", input := "x", config := () } : Step Unit)] ∧
      (SpawnEvent.mk (joinPath "bin" "B") (⟨"x", ()⟩ : Input Unit)).binPath =
        joinPath "bin" s.name) ∧
    builtBinPath .windows "bin" "B" = joinPath "bin" "B" ++ ".exe" ∧
    builtBinPath .linux "bin" "B" = joinPath "bin" "B" ++ "" :=
  ⟨(C7_module_path_resolution goUnmarshalOutput wEnvOk "bin").1 []
      [{ name := "B", input := "x", config := () }]
      ⟨joinPath "bin" "B", ⟨"x", ()⟩⟩ (by
        have hsp : (runSteps goUnmarshalOutput wEnvOk "bin" []
            [({ name := "B", input := "x", config := () } : Step Unit)]).spawns =
            [⟨joinPath "bin" "B", ⟨"x", ()⟩⟩] := rfl
        rw [hsp]
        exact List.mem_singleton.mpr rfl),
   (C7_module_path_resolution goUnmarshalOutput wEnvOk "bin").2.1 .windows
      "bin" "B" (by decide),
   (C7_module_path_resolution goUnmarshalOutput wEnvOk "bin").2.1 .linux
      "bin" "B" (by decide)⟩

/-! ## Claim about tolerant output decoding (C10) -/

/-- C10: after a zero exit, any trimmed capture the modelled `encoding/json`
deserialization accepts makes `runModule` succeed with the decoded `result`
string (no `ProtocolError`); an object with no key matching `result` decodes
to the empty string, an object whose matching assignments reduce to one
string decodes to that string (extra unrelated fields are ignored), the
document `\x7b\x7d` decodes to the empty string, and a whitespace-only
capture is classified as empty output. -/
theorem C10_tolerant_decode {Cfg : Type} (env : ExecEnv Cfg)
    (binPath : String) (inp : Input Cfg) :
    ((env binPath inp).runErr = none →
      (∀ o, goUnmarshalOutput (trimSpace (env binPath inp).stdout) = .ok o →
          runModule goUnmarshalOutput env binPath inp = .ok o.result) ∧
      (trimSpace (env binPath inp).stdout = "" →
          runModule goUnmarshalOutput env binPath inp = .error .protocolEmpty)) ∧
    (∀ fs, resultAssigns fs = [] → decodeOutput (.obj fs) = .ok ⟨""⟩) ∧
    (∀ fs r, resultAssigns fs = [Json.str r] → decodeOutput (.obj fs) = .ok ⟨r⟩) ∧
    goUnmarshalOutput "\x7b\x7d" = .ok ⟨""⟩ := by
  refine ⟨?_, ?_, ?_, rfl⟩
  · intro h
    constructor
    · intro o ho
      by_cases hr : trimSpace (env binPath inp).stdout = ""
      · rw [hr] at ho
        have hemp : goUnmarshalOutput "" = .error "invalid character in JSON input" := rfl
        rw [hemp] at ho
        cases ho
      · simp [runModule, h, hr, ho]
    · intro hr
      simp [runModule, h, hr]
  · intro fs h
    simp [decodeOutput, h, Except.map]
  · intro fs r h
    simp [decodeOutput, h, assignResult, Except.map]

/-- C10 witness environment: zero exit, whitespace-padded capture with an
extra field beside `result`. -/
def wEnvPad : ExecEnv Unit :=
  fun _ _ => ⟨none, "  \x7b\"extra\":[1,2],\"result\":\"ok\"\x7d\n"⟩

/-- C10 witness environment: zero exit, whitespace-only capture. -/
def wEnvPadBlank : ExecEnv Unit := fun _ _ => ⟨none, " \t\n"⟩

/-- C10 witness: the padded extra-field capture yields `.ok "ok"`, the
whitespace-only capture is empty output, and `\x7b\x7d` decodes to `""`. -/
theorem C10_witness :
    runModule goUnmarshalOutput wEnvPad "bin/m" (⟨"", ()⟩ : Input Unit) =
      .ok "ok" ∧
    runModule goUnmarshalOutput wEnvPadBlank "bin/m" (⟨"", ()⟩ : Input Unit) =
      .error .protocolEmpty ∧
    decodeOutput (.obj []) = .ok ⟨""⟩ :=
  ⟨((C10_tolerant_decode wEnvPad "bin/m" ⟨"", ()⟩).1 rfl).1 ⟨"ok"⟩ rfl,
   ((C10_tolerant_decode wEnvPadBlank "bin/m" ⟨"", ()⟩).1 rfl).2 rfl,
   (C10_tolerant_decode wEnvPad "bin/m" (⟨"", ()⟩ : Input Unit)).2.1 [] rfl⟩

/-! ## Lemmas about environment expansion and the Load-order claim (C8) -/

lemma expandChars_nil (env : String → String) (f : Nat) :
    expandChars env f [] = [] := by
  cases f <;> rfl

lemma expandChars_fuelInv (env : String → String) :
    ∀ (f g : Nat) (cs : List Char), cs.length ≤ f → cs.length ≤ g →
      expandChars env f cs = expandChars env g cs := by
  intro f
  induction f with
  | zero =>
      intro g cs hf _
      have : cs = [] := List.length_eq_zero.mp (Nat.le_zero.mp hf)
      subst this
      simp [expandChars_nil]
  | succ f ih =>
      intro g cs hf hg
      cases cs with
      | nil => simp [expandChars_nil]
      | cons c rest =>
          cases g with
          | zero => exact absurd hg (by simp)
          | succ g' =>
              have hrf : rest.length ≤ f := by
                simp only [List.length_cons] at hf; omega
              have hrg : rest.length ≤ g' := by
                simp only [List.length_cons] at hg; omega
              have hdrop : ∀ w, (rest.drop w).length ≤ rest.length := by
                intro w; simp [List.length_drop]
              simp only [expandChars]
              by_cases hc : c = '$'
              · rw [if_pos hc, if_pos hc]
                by_cases hr : rest = []
                · rw [if_pos hr, if_pos hr]
                · rw [if_neg hr, if_neg hr]
                  by_cases hn : (getShellName rest).1 = []
                  · rw [if_pos hn, if_pos hn]
                    by_cases hw : (getShellName rest).2 = 0
                    · rw [if_pos hw, if_pos hw, ih g' rest hrf hrg]
                    · rw [if_neg hw, if_neg hw]
                      exact ih g' _ (le_trans (hdrop _) hrf)
                        (le_trans (hdrop _) hrg)
                  · rw [if_neg hn, if_neg hn,
                      ih g' _ (le_trans (hdrop _) hrf) (le_trans (hdrop _) hrg)]
              · rw [if_neg hc, if_neg hc, ih g' rest hrf hrg]

lemma expandChars_copy (env : String → String) :
    ∀ (pre suf : List Char) (f : Nat), (∀ c ∈ pre, c ≠ '$') →
      pre.length + suf.length ≤ f →
      expandChars env f (pre ++ suf) = pre ++ expandChars env (f - pre.length) suf := by
  intro pre
  induction pre with
  | nil => intro suf f _ _; simp
  | cons c pre' ih =>
      intro suf f h hf
      have hc : c ≠ '$' := h c (List.mem_cons_self c pre')
      cases f with
      | zero =>
          exact absurd hf (by simp only [List.length_cons]; omega)
      | succ f' =>
          have h' : ∀ x ∈ pre', x ≠ '$' := fun x hx => h x (List.mem_cons_of_mem c hx)
          have hf' : pre'.length + suf.length ≤ f' := by
            simp only [List.length_cons] at hf; omega
          simp only [List.cons_append, expandChars, if_neg hc]
          simp only [List.length_cons, Nat.succ_sub_succ]
          congr 1
          exact ih suf f' h' hf'

lemma takeWhile_ne_brace (name suf : List Char) (hnb : '\x7d' ∉ name) :
    (name ++ '\x7d' :: suf).takeWhile notCloseBrace = name := by
  induction name with
  | nil => simp [List.takeWhile_cons, notCloseBrace]
  | cons a as ih =>
      have ha : a ≠ '\x7d' := fun h => hnb (by simp [h])
      have hab : notCloseBrace a = true := by simp [notCloseBrace, ha]
      have has : '\x7d' ∉ as := fun h => hnb (List.mem_cons_of_mem a h)
      simp only [List.cons_append, List.takeWhile_cons, hab]
      simp [ih has]

lemma drop_brace_block (nm sf : List Char) :
    ('\x7b' :: (nm ++ '\x7d' :: sf)).drop (nm.length + 2) = sf := by
  have h1 : ('\x7b' :: (nm ++ '\x7d' :: sf)) = ('\x7b' :: (nm ++ ['\x7d'])) ++ sf := by
    simp
  have h2 : ('\x7b' :: (nm ++ ['\x7d'])).length = nm.length + 2 := by
    simp
  rw [h1, ← h2, List.drop_left]

lemma getShellName_brace (name suf : List Char) (hne : name ≠ [])
    (hnb : '\x7d' ∉ name) :
    getShellName ('\x7b' :: (name ++ '\x7d' :: suf)) = (name, name.length + 2) := by
  have ht : (name ++ '\x7d' :: suf).takeWhile notCloseBrace = name :=
    takeWhile_ne_brace name suf hnb
  have hd : (name ++ '\x7d' :: suf).drop name.length = '\x7d' :: suf :=
    List.drop_left name ('\x7d' :: suf)
  simp only [getShellName, if_pos rfl, ht, hd]
  simp [hne]

lemma expandChars_subst (env : String → String) (name suf : String) (f : Nat)
    (hne : name.data ≠ []) (hnb : '\x7d' ∉ name.data) :
    expandChars env (f + 1) ('$' :: '\x7b' :: (name.data ++ '\x7d' :: suf.data)) =
      (env name).data ++ expandChars env f suf.data := by
  have hgs : getShellName ('\x7b' :: (name.data ++ '\x7d' :: suf.data)) =
      (name.data, name.data.length + 2) :=
    getShellName_brace name.data suf.data hne hnb
  have hrest : ('\x7b' :: (name.data ++ '\x7d' :: suf.data)) ≠ ([] : List Char) := by
    simp
  simp only [expandChars, if_pos rfl, if_neg hrest, hgs, if_neg hne]
  rw [drop_brace_block name.data suf.data]
  simp

/-- C8: `Load` builds the pipeline by parsing exactly the environment-expanded
raw text (expansion precedes structural parsing), and expansion substitutes
every `$\x7bVAR\x7d` token in place: for any prefix free of `$`, any
non-empty variable name and any suffix, the token's occurrence is replaced by
the environment's value for the name, with the rest of the text expanded
unchanged around it (configuration values enjoy no exemption — the
substitution is position-independent). -/
theorem C8_expand_before_parse :
    (∀ {Cfg : Type} (data : String)
        (parse : String → Except String (Pipeline Cfg))
        (env : String → String) (p : Pipeline Cfg),
        Load (.ok data) parse env = .ok p → parse (expandEnv env data) = .ok p) ∧
    (∀ (env : String → String) (pre name suf : String), '$' ∉ pre.data →
        name ≠ "" → '\x7d' ∉ name.data →
        expandEnv env (pre ++ "$\x7b" ++ name ++ "\x7d" ++ suf) =
          pre ++ env name ++ expandEnv env suf) := by
  constructor
  · intro Cfg data parse env p h
    cases hp : parse (expandEnv env data) with
    | error e => simp [Load, hp] at h
    | ok q =>
        simp only [Load, hp] at h
        by_cases hm : q.modules.length = 0
        · rw [if_pos hm] at h; cases h
        · rw [if_neg hm] at h
          have hq : q = p := by injection h
          exact congrArg Except.ok hq
  · intro env pre name suf hp hn hb
    have hne : name.data ≠ [] := fun h0 => hn (String.ext h0)
    have hpre : ∀ c ∈ pre.data, c ≠ '$' := fun c hc h => hp (h ▸ hc)
    have hdata : (pre ++ "$\x7b" ++ name ++ "\x7d" ++ suf).data =
        pre.data ++ ('$' :: '\x7b' :: (name.data ++ '\x7d' :: suf.data)) := by
      simp [String.data_append]
    apply String.ext
    show expandChars env (pre ++ "$\x7b" ++ name ++ "\x7d" ++ suf).data.length
        (pre ++ "$\x7b" ++ name ++ "\x7d" ++ suf).data =
      (pre ++ env name ++ expandEnv env suf).data
    rw [hdata]
    rw [expandChars_copy env pre.data
      ('$' :: '\x7b' :: (name.data ++ '\x7d' :: suf.data)) _ hpre
      (by simp [List.length_append])]
    have hsub : (pre.data ++ ('$' :: '\x7b' :: (name.data ++ '\x7d' :: suf.data))).length
        - pre.data.length =
        (name.data.length + suf.data.length + 2) + 1 := by
      simp only [List.length_append, List.length_cons]
      omega
    rw [hsub, expandChars_subst env name suf _ hne hb]
    rw [expandChars_fuelInv env (name.data.length + suf.data.length + 2)
      suf.data.length suf.data (by omega) (le_refl _)]
    simp [String.data_append, expandEnv, List.append_assoc]

/-- C8 witness environment mapping. -/
def wMapHome : String → String := fun v => if v = "HOME" then "/home/u" else ""

/-- C8 witness parse: succeed with a fixed one-step pipeline. -/
def wParse8 : String → Except String (Pipeline Unit) :=
  fun _ => .ok ⟨[⟨"m", "x", ()⟩]⟩

/-- C8 witness: a loaded pipeline is the parse of the expanded text, and a
concrete `$\x7bHOME\x7d` token inside a config-like line is substituted. -/
theorem C8_witness :
    wParse8 (expandEnv wMapHome "modules: ...") = .ok ⟨[⟨"m", "x", ()⟩]⟩ ∧
    expandEnv wMapHome ("dir: " ++ "$\x7b" ++ "HOME" ++ "\x7d" ++ "/work") =
      "dir: " ++ wMapHome "HOME" ++ expandEnv wMapHome "/work" :=
  ⟨C8_expand_before_parse.1 "modules: ..." wParse8 wMapHome ⟨[⟨"m", "x", ()⟩]⟩ rfl,
   C8_expand_before_parse.2 wMapHome "dir: " "HOME" "/work" (by decide)
      (by decide) (by decide)⟩

end OpenTrace
